import Mathlib

/-!
Verification of the LSB steganography codec in `src/hidden.go`.

The embedding models pixel-channel buffers and payloads as `List Nat`
(each element a byte value), and the two fallible operations `encode`
(embed) and `decode` (extract + parse/verify) as functions into
`Except String`, where the `String` is the exact message passed to
`fatal` in the source.
-/

namespace Hidden

/-- Failure message of `decode` (src/hidden.go line 113); used for both the
length check and the checksum check. -/
def noHiddenMessage : String := "image did not contain a hidden message"

/-- Failure message of `encode`'s capacity pre-check (src/hidden.go line 137). -/
def capacityMsg : String := "message is to large"

/-- Modulus of the Adler-32 checksum (`hash/adler32`). -/
def amod : Nat := 65521

/-- One step of the Adler-32 checksum: `a += d; b += a`, both mod 65521. -/
def adlerStep (s : Nat × Nat) (d : Nat) : Nat × Nat :=
  ((s.1 + d) % amod, (s.2 + (s.1 + d) % amod) % amod)

/-- Adler-32 checksum (`adler32.Checksum`): fold over the bytes starting from
`a = 1, b = 0`, result `b<<16 | a`. -/
def adler32 (l : List Nat) : Nat :=
  let s := l.foldl adlerStep (1, 0)
  s.2 <<< 16 ||| s.1

/-- Big-endian serialization of a `uint32` (`binary.Write` with
`binary.BigEndian`); per-byte `% 256` realizes the `uint32` truncation. -/
def be32 (n : Nat) : List Nat :=
  [n / 2 ^ 24 % 256, n / 2 ^ 16 % 256, n / 2 ^ 8 % 256, n % 256]

/-- Big-endian `uint32` read (`binary.Read` with `binary.BigEndian`) from a
byte stream: with at least 4 bytes it consumes 4 and returns their value;
otherwise it drains the stream, reports an error (dropped by the source),
and leaves the destination variable at its zero value. -/
def read32 : List Nat → Nat × List Nat
  | b0 :: b1 :: b2 :: b3 :: rest => (((b0 * 256 + b1) * 256 + b2) * 256 + b3, rest)
  | _ => (0, [])

/-- Frame built by `newBitReader` (src/hidden.go lines 178-183): 4 big-endian
length bytes, 4 big-endian Adler-32 bytes, then the payload. -/
def frameData (msg : List Nat) : List Nat :=
  be32 msg.length ++ be32 (adler32 msg) ++ msg

/-- Value computed by `bitReader.next` (src/hidden.go line 196):
`(b & (0x80 >> bit)) >> (7 - bit)` at bit offset `ptr`. -/
def brVal (data : List Nat) (ptr : Nat) : Nat :=
  (data.getD (ptr / 8) 0 &&& (0x80 >>> (ptr % 8))) >>> (7 - ptr % 8)

/-- `bitReader.next` (src/hidden.go lines 186-197): `io.EOF` once
`ptr / 8` passes the end of the data. -/
def brBit (data : List Nat) (ptr : Nat) : Option Nat :=
  if data.length ≤ ptr / 8 then none else some (brVal data ptr)

/-- Loop body of `encode` (src/hidden.go lines 140-154): every 4th byte is
copied, otherwise the next frame bit (if any) replaces the byte's LSB via
`if b%2 != 0 { b-- }; dest[i] = b + bit`; on `io.EOF` the byte is copied and
the cursor does not advance. -/
def encodeLoop : List Nat → Nat → List Nat → Nat → List Nat
  | [], _, _, _ => []
  | b :: rest, i, data, ptr =>
    if (i + 1) % 4 = 0 then b :: encodeLoop rest (i + 1) data ptr
    else
      match brBit data ptr with
      | none => b :: encodeLoop rest (i + 1) data ptr
      | some bit => ((if b % 2 ≠ 0 then b - 1 else b) + bit) :: encodeLoop rest (i + 1) data (ptr + 1)

/-- `encode` (src/hidden.go lines 130-154) on the pixel-channel buffer:
build the frame, pre-check `len(r.data) + ln/4 > ln`, then run the
embedding loop into a fresh destination buffer. -/
def encodeGo (pix msg : List Nat) : Except String (List Nat) :=
  let data := frameData msg
  if data.length + pix.length / 4 > pix.length then Except.error capacityMsg
  else Except.ok (encodeLoop pix 0 data 0)

/-- Extraction loop of `decode` (src/hidden.go lines 91-104): skip every 4th
byte, `res |= (b%2) << (7 - j%8)`, flush a byte whenever `j` reaches a
multiple of 8; a trailing partial byte is discarded. -/
def extractLoop : List Nat → Nat → Nat → Nat → List Nat
  | [], _, _, _ => []
  | b :: rest, i, res, j =>
    if (i + 1) % 4 = 0 then extractLoop rest (i + 1) res j
    else
      if (j + 1) % 8 = 0 then (res ||| ((b % 2) <<< (7 - j % 8))) :: extractLoop rest (i + 1) 0 (j + 1)
      else extractLoop rest (i + 1) (res ||| ((b % 2) <<< (7 - j % 8))) (j + 1)

/-- The bit-extraction half of `decode`: LSBs of eligible bytes packed
MSB-first into bytes. -/
def extractGo (pix : List Nat) : List Nat := extractLoop pix 0 0 0

/-- The parse/verify half of `decode` (src/hidden.go lines 106-123):
read `size` and `hash` big-endian, check `len(msg) < size`, slice
`msg[:size]`, compare the Adler-32 checksum; both failures report the one
`noHiddenMessage` outcome. -/
def parseFrame (s : List Nat) : Except String (List Nat) :=
  let p1 := read32 s
  let p2 := read32 p1.2
  if p2.2.length < p1.1 then Except.error noHiddenMessage
  else if adler32 (p2.2.take p1.1) ≠ p2.1 then Except.error noHiddenMessage
  else Except.ok (p2.2.take p1.1)

/-- `decode` (src/hidden.go lines 83-123) up to the final file write:
extract the bit stream, then parse and verify the frame. -/
def decodeGo (pix : List Nat) : Except String (List Nat) := parseFrame (extractGo pix)

/-- Eligible-byte LSB stream of a carrier starting at absolute index `i`:
one bit (`b % 2`) per byte whose index does not satisfy `(i+1) % 4 = 0`. -/
def eligBits : List Nat → Nat → List Nat
  | [], _ => []
  | b :: rest, i => if (i + 1) % 4 = 0 then eligBits rest (i + 1) else b % 2 :: eligBits rest (i + 1)

/-- Specification-level packing (spec §4.4): groups of 8 consecutive bits
combined MSB-first into one byte; a trailing group of fewer than 8 bits is
dropped. -/
def packBits : List Nat → List Nat
  | b0 :: b1 :: b2 :: b3 :: b4 :: b5 :: b6 :: b7 :: rest =>
      (b0 * 128 + b1 * 64 + b2 * 32 + b3 * 16 + b4 * 8 + b5 * 4 + b6 * 2 + b7) :: packBits rest
  | _ => []

/-- The bit-packing state machine of the extraction loop, abstracted from the
carrier: same `res`/`j` bookkeeping as `extractLoop`, driven by a bit list. -/
def packLoop : List Nat → Nat → Nat → List Nat
  | [], _, _ => []
  | bit :: rest, res, j =>
    if (j + 1) % 8 = 0 then (res ||| (bit <<< (7 - j % 8))) :: packLoop rest 0 (j + 1)
    else packLoop rest (res ||| (bit <<< (7 - j % 8))) (j + 1)

/-- Number of eligible absolute indices below `i` (indices `j < i` with
`(j+1) % 4 ≠ 0`). -/
def eligRank (i : Nat) : Nat := i - i / 4

/-- Bits served by the bit reader from offset `ptr` to exhaustion. -/
def bitsFrom (data : List Nat) (ptr : Nat) : List Nat :=
  (List.range (8 * data.length - ptr)).map fun t => brVal data (ptr + t)

/-- Corruption operation for the integrity-detection scenario: flip the LSB
of the eligible byte of rank `k` (counting eligible bytes from absolute
index `i`), leaving every other byte unchanged. -/
def flipElig : List Nat → Nat → Nat → List Nat
  | [], _, _ => []
  | b :: rest, i, k =>
    if (i + 1) % 4 = 0 then b :: flipElig rest (i + 1) k
    else if k = 0 then (b - b % 2 + (1 - b % 2)) :: rest
    else b :: flipElig rest (i + 1) (k - 1)

/-- A shifted value ors with a small value as addition: the two operands have
disjoint bit ranges. -/
theorem lor_shl_eq_add {y k : Nat} (x : Nat) (h : y < 2 ^ k) :
    (x <<< k) ||| y = x * 2 ^ k + y := by
  apply Nat.eq_of_testBit_eq
  intro i
  rw [Nat.testBit_or, Nat.testBit_shiftLeft, Nat.mul_comm x (2 ^ k),
    Nat.testBit_mul_pow_two_add x h i]
  by_cases hik : i < k
  · simp [Nat.not_le.mpr hik, hik]
  · have hy : y.testBit i = false :=
      Nat.testBit_lt_two_pow (lt_of_lt_of_le h (Nat.pow_le_pow_right (by norm_num) (Nat.le_of_not_lt hik)))
    simp [Nat.le_of_not_lt hik, hik, hy]

/-- The first Adler-32 accumulator is the byte sum plus one, mod 65521. -/
theorem adlerFold_fst (l : List Nat) : ∀ s : Nat × Nat, s.1 < amod →
    (l.foldl adlerStep s).1 = (s.1 + l.sum) % amod := by
  induction l with
  | nil => intro s hs; simp [Nat.mod_eq_of_lt hs]
  | cons d t ih =>
    intro s hs
    have h1 : (adlerStep s d).1 < amod := Nat.mod_lt _ (by norm_num [amod])
    rw [List.foldl_cons, ih _ h1]
    show ((s.1 + d) % amod + t.sum) % amod = (s.1 + (d :: t).sum) % amod
    rw [Nat.mod_add_mod, List.sum_cons]
    ring_nf

/-- The second Adler-32 accumulator stays below the modulus. -/
theorem adlerFold_snd_lt (l : List Nat) : ∀ s : Nat × Nat, s.2 < amod →
    (l.foldl adlerStep s).2 < amod := by
  induction l with
  | nil => intro s hs; simpa using hs
  | cons d t ih =>
    intro s hs
    exact ih _ (Nat.mod_lt _ (by norm_num [amod]))

/-- Closed form of the checksum word: high half times 2^16 plus low half. -/
theorem adler32_eq (l : List Nat) :
    adler32 l = (l.foldl adlerStep (1, 0)).2 * 65536 + (l.foldl adlerStep (1, 0)).1 := by
  have h1 : (l.foldl adlerStep (1, 0)).1 < 65536 := by
    have := adlerFold_fst l (1, 0) (by norm_num [amod])
    rw [this]
    have : (1 + l.sum) % amod < amod := Nat.mod_lt _ (by norm_num [amod])
    norm_num [amod] at this ⊢
    omega
  show (l.foldl adlerStep (1, 0)).2 <<< 16 ||| (l.foldl adlerStep (1, 0)).1 = _
  rw [lor_shl_eq_add _ (by norm_num at h1 ⊢; omega)]
  norm_num

/-- The checksum word is a `uint32` value. -/
theorem adler32_lt (l : List Nat) : adler32 l < 2 ^ 32 := by
  rw [adler32_eq l]
  have h1 : (l.foldl adlerStep (1, 0)).1 < amod := by
    rw [adlerFold_fst l (1, 0) (by norm_num [amod])]
    exact Nat.mod_lt _ (by norm_num [amod])
  have h2 := adlerFold_snd_lt l (1, 0) (by norm_num [amod])
  norm_num [amod] at h1 h2 ⊢
  omega

/-- Adler-32 separates byte buffers that differ in exactly one byte: the first
accumulator is the byte sum plus one mod 65521, and a single-byte difference
is a nonzero shift of that sum by less than the modulus. -/
theorem adler32_ne_of_byte_ne (p q : List Nat) {d1 d2 : Nat}
    (h1 : d1 < 256) (h2 : d2 < 256) (hne : d1 ≠ d2) :
    adler32 (p ++ d1 :: q) ≠ adler32 (p ++ d2 :: q) := by
  intro he
  have am : amod = 65521 := rfl
  have e1 := adlerFold_fst (p ++ d1 :: q) (1, 0) (by norm_num [amod])
  have e2 := adlerFold_fst (p ++ d2 :: q) (1, 0) (by norm_num [amod])
  have b1 : (1 + (p ++ d1 :: q).sum) % amod < amod := Nat.mod_lt _ (by norm_num [amod])
  have b2 : (1 + (p ++ d2 :: q).sum) % amod < amod := Nat.mod_lt _ (by norm_num [amod])
  rw [adler32_eq, adler32_eq, e1, e2] at he
  rw [am] at he b1 b2
  have hs : (1 + (p ++ d1 :: q).sum) % 65521 = (1 + (p ++ d2 :: q).sum) % 65521 := by
    omega
  rw [List.sum_append, List.sum_cons, List.sum_append, List.sum_cons] at hs
  omega

/-- Reading back a big-endian serialized `uint32` returns the value and the
rest of the stream. -/
theorem read32_be32 {n : Nat} (h : n < 2 ^ 32) (rest : List Nat) :
    read32 (be32 n ++ rest) = (n, rest) := by
  show read32 (n / 2 ^ 24 % 256 :: n / 2 ^ 16 % 256 :: n / 2 ^ 8 % 256 :: n % 256 :: rest) = _
  rw [read32]
  norm_num
  omega

/-- Each serialized big-endian byte is a byte value. -/
theorem be32_lt (n : Nat) : ∀ b ∈ be32 n, b < 256 := by
  simp only [be32, List.mem_cons, List.mem_singleton]
  rintro b (rfl | rfl | rfl | rfl | h)
  all_goals first
    | exact Nat.mod_lt _ (by norm_num)
    | simp at h

theorem be32_length (n : Nat) : (be32 n).length = 4 := rfl

theorem frameData_length (msg : List Nat) : (frameData msg).length = 8 + msg.length := by
  simp [frameData, be32]
  omega

theorem frameData_lt (msg : List Nat) (h : ∀ b ∈ msg, b < 256) :
    ∀ b ∈ frameData msg, b < 256 := by
  intro b hb
  rcases List.mem_append.mp hb with h1 | h2
  · rcases List.mem_append.mp h1 with h3 | h4
    · exact be32_lt _ b h3
    · exact be32_lt _ b h4
  · exact h b h2

/-- Parsing a stream that starts with a well-formed frame recovers the payload,
whatever follows the frame. -/
theorem parseFrame_frame (msg t : List Nat) (hlen : msg.length < 2 ^ 32) :
    parseFrame (frameData msg ++ t) = Except.ok msg := by
  have e0 : frameData msg ++ t = be32 msg.length ++ (be32 (adler32 msg) ++ (msg ++ t)) := by
    simp [frameData]
  rw [parseFrame, e0, read32_be32 hlen, read32_be32 (adler32_lt msg)]
  have hlen2 : ¬ (msg ++ t).length < msg.length := by
    simp [List.length_append]
  have htake : (msg ++ t).take msg.length = msg := List.take_left msg t
  rw [if_neg hlen2, htake, if_neg (by simp)]

theorem eligBits_nil (i : Nat) : eligBits [] i = [] := rfl

theorem eligBits_cons (b : Nat) (rest : List Nat) (i : Nat) :
    eligBits (b :: rest) i =
      if (i + 1) % 4 = 0 then eligBits rest (i + 1) else b % 2 :: eligBits rest (i + 1) := rfl

theorem encodeLoop_cons (b : Nat) (rest : List Nat) (i : Nat) (data : List Nat) (ptr : Nat) :
    encodeLoop (b :: rest) i data ptr =
      if (i + 1) % 4 = 0 then b :: encodeLoop rest (i + 1) data ptr
      else
        match brBit data ptr with
        | none => b :: encodeLoop rest (i + 1) data ptr
        | some bit =>
            ((if b % 2 ≠ 0 then b - 1 else b) + bit) :: encodeLoop rest (i + 1) data (ptr + 1) := rfl

theorem extractLoop_cons (b : Nat) (rest : List Nat) (i res j : Nat) :
    extractLoop (b :: rest) i res j =
      if (i + 1) % 4 = 0 then extractLoop rest (i + 1) res j
      else
        if (j + 1) % 8 = 0 then
          (res ||| ((b % 2) <<< (7 - j % 8))) :: extractLoop rest (i + 1) 0 (j + 1)
        else extractLoop rest (i + 1) (res ||| ((b % 2) <<< (7 - j % 8))) (j + 1) := rfl

theorem packLoop_cons (bit : Nat) (rest : List Nat) (res j : Nat) :
    packLoop (bit :: rest) res j =
      if (j + 1) % 8 = 0 then (res ||| (bit <<< (7 - j % 8))) :: packLoop rest 0 (j + 1)
      else packLoop rest (res ||| (bit <<< (7 - j % 8))) (j + 1) := rfl

theorem packBits_cons8 (b0 b1 b2 b3 b4 b5 b6 b7 : Nat) (rest : List Nat) :
    packBits (b0 :: b1 :: b2 :: b3 :: b4 :: b5 :: b6 :: b7 :: rest) =
      (b0 * 128 + b1 * 64 + b2 * 32 + b3 * 16 + b4 * 8 + b5 * 4 + b6 * 2 + b7) :: packBits rest :=
  rfl

theorem packBits_short (bits : List Nat) (h : bits.length < 8) : packBits bits = [] := by
  rcases bits with _ | ⟨b0, _ | ⟨b1, _ | ⟨b2, _ | ⟨b3, _ | ⟨b4, _ | ⟨b5, _ | ⟨b6, _ | ⟨b7, rest⟩⟩⟩⟩⟩⟩⟩⟩
  all_goals first
    | rfl
    | (exfalso; simp only [List.length_cons] at h; omega)

theorem flipElig_cons (b : Nat) (rest : List Nat) (i k : Nat) :
    flipElig (b :: rest) i k =
      if (i + 1) % 4 = 0 then b :: flipElig rest (i + 1) k
      else if k = 0 then (b - b % 2 + (1 - b % 2)) :: rest
      else b :: flipElig rest (i + 1) (k - 1) := rfl

theorem eligRank_zero : eligRank 0 = 0 := rfl

theorem eligRank_succ_elig {i : Nat} (h : (i + 1) % 4 ≠ 0) : eligRank (i + 1) = eligRank i + 1 := by
  simp only [eligRank]
  omega

theorem eligRank_succ_skip {i : Nat} (h : (i + 1) % 4 = 0) : eligRank (i + 1) = eligRank i := by
  simp only [eligRank]
  omega

theorem eligRank_mono {i j : Nat} (h : i ≤ j) : eligRank i ≤ eligRank j := by
  simp only [eligRank]
  omega

/-- The eligible-bit stream has one entry per eligible index. -/
theorem eligBits_length (pix : List Nat) : ∀ i : Nat,
    (eligBits pix i).length = eligRank (i + pix.length) - eligRank i := by
  induction pix with
  | nil => intro i; simp [eligBits_nil, Nat.sub_self]
  | cons b rest ih =>
    intro i
    rw [eligBits_cons]
    have h2 : i + (b :: rest).length = i + 1 + rest.length := by
      simp [List.length_cons]
      omega
    by_cases h : (i + 1) % 4 = 0
    · rw [if_pos h, ih (i + 1), h2, eligRank_succ_skip h]
    · rw [if_neg h]
      rw [List.length_cons, ih (i + 1), h2]
      have h1 := eligRank_succ_elig h
      have h3 : eligRank (i + 1) ≤ eligRank (i + 1 + rest.length) := eligRank_mono (by omega)
      omega

/-- Every element of the eligible-bit stream is a bit. -/
theorem eligBits_lt_two (pix : List Nat) : ∀ i : Nat, ∀ b ∈ eligBits pix i, b < 2 := by
  induction pix with
  | nil => intro i b hb; simp [eligBits_nil] at hb
  | cons x rest ih =>
    intro i b hb
    rw [eligBits_cons] at hb
    by_cases h : (i + 1) % 4 = 0
    · rw [if_pos h] at hb
      exact ih (i + 1) b hb
    · rw [if_neg h] at hb
      rcases List.mem_cons.mp hb with rfl | hb2
      · exact Nat.mod_lt _ (by norm_num)
      · exact ih (i + 1) b hb2

theorem shiftRight_le_one {y k : Nat} (h : y ≤ 2 ^ k) : y >>> k < 2 := by
  rw [Nat.shiftRight_eq_div_pow]
  have h2 := Nat.div_le_div_right (c := 2 ^ k) h
  rw [Nat.div_self (Nat.pos_pow_of_pos k (by norm_num))] at h2
  omega

theorem mask_eq {m : Nat} (h : m < 8) : (0x80 : Nat) >>> m = 2 ^ (7 - m) := by
  interval_cases m <;> decide

/-- Every bit served by the bit reader is 0 or 1. -/
theorem brVal_lt_two (data : List Nat) (ptr : Nat) : brVal data ptr < 2 := by
  have hm : ptr % 8 < 8 := Nat.mod_lt _ (by norm_num)
  unfold brVal
  rw [mask_eq hm]
  exact shiftRight_le_one Nat.and_le_right

theorem brBit_of_lt {data : List Nat} {ptr : Nat} (h : ptr < 8 * data.length) :
    brBit data ptr = some (brVal data ptr) := by
  simp only [brBit]
  rw [if_neg (by omega)]

theorem brBit_of_ge {data : List Nat} {ptr : Nat} (h : 8 * data.length ≤ ptr) :
    brBit data ptr = none := by
  simp only [brBit]
  rw [if_pos (by omega)]

/-- The embedding loop preserves the carrier length. -/
theorem encodeLoop_length (pix : List Nat) : ∀ (i ptr : Nat) (data : List Nat),
    (encodeLoop pix i data ptr).length = pix.length := by
  induction pix with
  | nil => intro i ptr data; rfl
  | cons b rest ih =>
    intro i ptr data
    rw [encodeLoop_cons]
    by_cases h : (i + 1) % 4 = 0
    · simp [if_pos h, ih]
    · rw [if_neg h]
      cases hbr : brBit data ptr with
      | none => simp [ih]
      | some bit => simp [ih]

/-- Once the bit reader is exhausted the embedding loop copies the carrier. -/
theorem encodeLoop_exhausted (pix : List Nat) : ∀ (i ptr : Nat) (data : List Nat),
    8 * data.length ≤ ptr → encodeLoop pix i data ptr = pix := by
  induction pix with
  | nil => intros; rfl
  | cons b rest ih =>
    intro i ptr data h
    rw [encodeLoop_cons]
    by_cases hh : (i + 1) % 4 = 0
    · rw [if_pos hh, ih _ _ _ h]
    · rw [if_neg hh, brBit_of_ge h, ih _ _ _ h]

theorem encodeLoop_nil (i : Nat) (data : List Nat) (ptr : Nat) : encodeLoop [] i data ptr = [] :=
  rfl

theorem encodeLoop_cons_skip {i : Nat} (hskip : (i + 1) % 4 = 0) (b : Nat) (rest : List Nat)
    (data : List Nat) (ptr : Nat) :
    encodeLoop (b :: rest) i data ptr = b :: encodeLoop rest (i + 1) data ptr := by
  rw [encodeLoop_cons, if_pos hskip]

theorem encodeLoop_cons_none {i : Nat} (hskip : (i + 1) % 4 ≠ 0) {data : List Nat} {ptr : Nat}
    (hbr : brBit data ptr = none) (b : Nat) (rest : List Nat) :
    encodeLoop (b :: rest) i data ptr = b :: encodeLoop rest (i + 1) data ptr := by
  rw [encodeLoop_cons, if_neg hskip, hbr]

theorem encodeLoop_cons_some {i : Nat} (hskip : (i + 1) % 4 ≠ 0) {data : List Nat} {ptr v : Nat}
    (hbr : brBit data ptr = some v) (b : Nat) (rest : List Nat) :
    encodeLoop (b :: rest) i data ptr =
      ((if b % 2 ≠ 0 then b - 1 else b) + v) :: encodeLoop rest (i + 1) data (ptr + 1) := by
  rw [encodeLoop_cons, if_neg hskip, hbr]

/-- Clearing the least-significant bit, as the source writes it. -/
theorem clearLSB (b : Nat) : (if b % 2 ≠ 0 then b - 1 else b) = b - b % 2 := by
  by_cases hb : b % 2 = 0
  · simp [hb]
  · rw [if_pos hb]
    omega

/-- The LSB of a byte whose LSB was overwritten with a bit `v` is `v`. -/
theorem lsb_set (b v : Nat) (hv : v < 2) : (b - b % 2 + v) % 2 = v := by
  omega

/-- Per-index description of the embedding loop: ineligible bytes are copied,
eligible bytes receive the frame bit at their eligible rank if the reader is
not yet exhausted there, and are copied otherwise. -/
theorem encodeLoop_getElem (pix : List Nat) : ∀ (i0 ptr : Nat) (data : List Nat) (k : Nat),
    (encodeLoop pix i0 data ptr)[k]? =
      pix[k]?.map (fun b =>
        if (i0 + k + 1) % 4 = 0 then b
        else if ptr + (eligRank (i0 + k) - eligRank i0) < 8 * data.length then
          b - b % 2 + brVal data (ptr + (eligRank (i0 + k) - eligRank i0))
        else b) := by
  induction pix with
  | nil => intro i0 ptr data k; simp [encodeLoop_nil]
  | cons b rest ih =>
    intro i0 ptr data k
    by_cases hex : 8 * data.length ≤ ptr
    · rw [encodeLoop_exhausted _ _ _ _ hex]
      cases hrk : (b :: rest)[k]? with
      | none => simp
      | some a =>
        simp only [Option.map_some']
        by_cases hP : (i0 + k + 1) % 4 = 0
        · rw [if_pos hP]
        · rw [if_neg hP, if_neg (by omega)]
    · have hlt : ptr < 8 * data.length := Nat.lt_of_not_le hex
      by_cases hskip : (i0 + 1) % 4 = 0
      · rw [encodeLoop_cons_skip hskip]
        cases k with
        | zero =>
          simp only [List.getElem?_cons_zero, Option.map_some']
          rw [if_pos (by simpa using hskip)]
        | succ k =>
          simp only [List.getElem?_cons_succ]
          rw [ih (i0 + 1) ptr data k]
          cases hrk : rest[k]? with
          | none => simp
          | some a =>
            simp only [Option.map_some']
            have e1 : i0 + 1 + k = i0 + (k + 1) := by omega
            have e2 : eligRank (i0 + 1) = eligRank i0 := eligRank_succ_skip hskip
            rw [e1, e2]
      · rw [encodeLoop_cons_some hskip (brBit_of_lt hlt)]
        cases k with
        | zero =>
          simp only [List.getElem?_cons_zero, Option.map_some']
          rw [clearLSB]
          simp only [Nat.add_zero, Nat.sub_self]
          rw [if_neg hskip, if_pos hlt]
        | succ k =>
          simp only [List.getElem?_cons_succ]
          rw [ih (i0 + 1) (ptr + 1) data k]
          cases hrk : rest[k]? with
          | none => simp
          | some a =>
            simp only [Option.map_some']
            have e1 : i0 + 1 + k = i0 + (k + 1) := by omega
            have e2 : eligRank (i0 + 1) = eligRank i0 + 1 := eligRank_succ_elig hskip
            have e3 : eligRank i0 + 1 ≤ eligRank (i0 + (k + 1)) := by
              rw [← e2]
              exact eligRank_mono (by omega)
            have e4 : ptr + 1 + (eligRank (i0 + (k + 1)) - (eligRank i0 + 1)) =
                ptr + (eligRank (i0 + (k + 1)) - eligRank i0) := by omega
            rw [e1, e2, e4]

theorem bitsFrom_ge {data : List Nat} {ptr : Nat} (h : 8 * data.length ≤ ptr) :
    bitsFrom data ptr = [] := by
  unfold bitsFrom
  rw [Nat.sub_eq_zero_of_le h]
  rfl

theorem bitsFrom_lt {data : List Nat} {ptr : Nat} (h : ptr < 8 * data.length) :
    bitsFrom data ptr = brVal data ptr :: bitsFrom data (ptr + 1) := by
  unfold bitsFrom
  have e : 8 * data.length - ptr = (8 * data.length - (ptr + 1)) + 1 := by omega
  rw [e, List.range_succ_eq_map, List.map_cons, List.map_map]
  simp only [Nat.add_zero]
  congr 1
  apply List.map_congr_left
  intro t ht
  show brVal data (ptr + (t + 1)) = brVal data (ptr + 1 + t)
  congr 1
  omega

theorem bitsFrom_length (data : List Nat) (ptr : Nat) :
    (bitsFrom data ptr).length = 8 * data.length - ptr := by
  unfold bitsFrom
  simp

/-- While all remaining frame bits fit among the eligible bytes, the eligible
LSBs of the embedded carrier are exactly the remaining frame bits followed by
the surviving original eligible LSBs. -/
theorem eligBits_encodeLoop (pix : List Nat) : ∀ (i0 ptr : Nat) (data : List Nat),
    ptr ≤ 8 * data.length →
    8 * data.length - ptr ≤ (eligBits pix i0).length →
    eligBits (encodeLoop pix i0 data ptr) i0 =
      bitsFrom data ptr ++ (eligBits pix i0).drop (8 * data.length - ptr) := by
  induction pix with
  | nil =>
    intro i0 ptr data hptr hcap
    rw [eligBits_nil] at hcap
    simp only [List.length_nil, Nat.le_zero] at hcap
    rw [encodeLoop_nil, eligBits_nil, bitsFrom_ge (by omega)]
    simp
  | cons b rest ih =>
    intro i0 ptr data hptr hcap
    by_cases hskip : (i0 + 1) % 4 = 0
    · have he : eligBits (b :: rest) i0 = eligBits rest (i0 + 1) := by
        rw [eligBits_cons, if_pos hskip]
      rw [he] at hcap ⊢
      rw [encodeLoop_cons_skip hskip, eligBits_cons, if_pos hskip]
      exact ih (i0 + 1) ptr data hptr hcap
    · have he : eligBits (b :: rest) i0 = b % 2 :: eligBits rest (i0 + 1) := by
        rw [eligBits_cons, if_neg hskip]
      by_cases hlt : ptr < 8 * data.length
      · rw [encodeLoop_cons_some hskip (brBit_of_lt hlt), eligBits_cons, if_neg hskip]
        rw [clearLSB, lsb_set _ _ (brVal_lt_two data ptr)]
        have hcap2 : 8 * data.length - (ptr + 1) ≤ (eligBits rest (i0 + 1)).length := by
          rw [he] at hcap
          simp only [List.length_cons] at hcap
          omega
        rw [ih (i0 + 1) (ptr + 1) data (by omega) hcap2, bitsFrom_lt hlt, he]
        have e : 8 * data.length - ptr = (8 * data.length - (ptr + 1)) + 1 := by omega
        rw [e, List.drop_succ_cons, List.cons_append]
      · have hge : 8 * data.length ≤ ptr := Nat.le_of_not_lt hlt
        rw [encodeLoop_exhausted _ _ _ _ hge, bitsFrom_ge hge, Nat.sub_eq_zero_of_le hge]
        simp

/-- The extraction loop is the packing state machine applied to the eligible
LSB stream. -/
theorem extractLoop_eq_packLoop (pix : List Nat) : ∀ (i res j : Nat),
    extractLoop pix i res j = packLoop (eligBits pix i) res j := by
  induction pix with
  | nil => intros; rfl
  | cons b rest ih =>
    intro i res j
    rw [extractLoop_cons, eligBits_cons]
    by_cases h : (i + 1) % 4 = 0
    · rw [if_pos h, if_pos h, ih]
    · rw [if_neg h, if_neg h, packLoop_cons]
      by_cases hj : (j + 1) % 8 = 0
      · rw [if_pos hj, if_pos hj, ih]
      · rw [if_neg hj, if_neg hj, ih]

/-- Eight bits accumulated MSB-first by or-ing shifted bits equal the MSB-first
byte value. -/
theorem lorCombine (b0 b1 b2 b3 b4 b5 b6 b7 : Nat)
    (h0 : b0 < 2) (h1 : b1 < 2) (h2 : b2 < 2) (h3 : b3 < 2)
    (h4 : b4 < 2) (h5 : b5 < 2) (h6 : b6 < 2) (h7 : b7 < 2) :
    ((((((((0 : Nat) ||| (b0 <<< 7)) ||| (b1 <<< 6)) ||| (b2 <<< 5)) ||| (b3 <<< 4)) |||
        (b4 <<< 3)) ||| (b5 <<< 2)) ||| (b6 <<< 1)) ||| (b7 <<< 0) =
      b0 * 128 + b1 * 64 + b2 * 32 + b3 * 16 + b4 * 8 + b5 * 4 + b6 * 2 + b7 := by
  interval_cases b0 <;> interval_cases b1 <;> interval_cases b2 <;> interval_cases b3 <;>
    interval_cases b4 <;> interval_cases b5 <;> interval_cases b6 <;> interval_cases b7 <;>
    decide

/-- Unrolling the packing state machine over one full byte of bits. -/
theorem packLoop_cons8 (b0 b1 b2 b3 b4 b5 b6 b7 : Nat) (rest : List Nat) (j : Nat)
    (hj : j % 8 = 0)
    (h0 : b0 < 2) (h1 : b1 < 2) (h2 : b2 < 2) (h3 : b3 < 2)
    (h4 : b4 < 2) (h5 : b5 < 2) (h6 : b6 < 2) (h7 : b7 < 2) :
    packLoop (b0 :: b1 :: b2 :: b3 :: b4 :: b5 :: b6 :: b7 :: rest) 0 j =
      (b0 * 128 + b1 * 64 + b2 * 32 + b3 * 16 + b4 * 8 + b5 * 4 + b6 * 2 + b7) ::
        packLoop rest 0 (j + 8) := by
  have c1 : (j + 1) % 8 = 1 := by omega
  have c2 : (j + 1 + 1) % 8 = 2 := by omega
  have c3 : (j + 1 + 1 + 1) % 8 = 3 := by omega
  have c4 : (j + 1 + 1 + 1 + 1) % 8 = 4 := by omega
  have c5 : (j + 1 + 1 + 1 + 1 + 1) % 8 = 5 := by omega
  have c6 : (j + 1 + 1 + 1 + 1 + 1 + 1) % 8 = 6 := by omega
  have c7 : (j + 1 + 1 + 1 + 1 + 1 + 1 + 1) % 8 = 7 := by omega
  have c8 : (j + 1 + 1 + 1 + 1 + 1 + 1 + 1 + 1) % 8 = 0 := by omega
  have c9 : j + 1 + 1 + 1 + 1 + 1 + 1 + 1 + 1 = j + 8 := by omega
  simp only [packLoop_cons, hj, c1, c2, c3, c4, c5, c6, c7, c8, c9]
  norm_num
  simpa using lorCombine b0 b1 b2 b3 b4 b5 b6 b7 h0 h1 h2 h3 h4 h5 h6 h7

/-- A trailing group of fewer than 8 bits never flushes a byte. -/
theorem packLoop_short (bits : List Nat) : ∀ (res j : Nat),
    j % 8 + bits.length < 8 → packLoop bits res j = [] := by
  induction bits with
  | nil => intros; rfl
  | cons bit rest ih =>
    intro res j h
    simp only [List.length_cons] at h
    rw [packLoop_cons, if_neg (by omega)]
    exact ih _ (j + 1) (by omega)

theorem packLoop_eq_packBits_aux : ∀ (n : Nat) (bits : List Nat), bits.length ≤ n →
    (∀ b ∈ bits, b < 2) → ∀ j : Nat, j % 8 = 0 → packLoop bits 0 j = packBits bits := by
  intro n
  induction n with
  | zero =>
    intro bits hn hb j hj
    have hnil : bits = [] := List.eq_nil_of_length_eq_zero (by omega)
    subst hnil
    rfl
  | succ n ih =>
    intro bits hn hb j hj
    rcases bits with _ | ⟨b0, _ | ⟨b1, _ | ⟨b2, _ | ⟨b3, _ | ⟨b4, _ | ⟨b5, _ | ⟨b6, _ | ⟨b7, rest⟩⟩⟩⟩⟩⟩⟩⟩
    all_goals try
      (rw [packLoop_short _ _ _ (by simp only [List.length_cons, List.length_nil]; omega),
        packBits_short _ (by simp only [List.length_cons, List.length_nil]; omega)])
    rw [packLoop_cons8 b0 b1 b2 b3 b4 b5 b6 b7 rest j hj
      (hb b0 (by simp)) (hb b1 (by simp)) (hb b2 (by simp)) (hb b3 (by simp))
      (hb b4 (by simp)) (hb b5 (by simp)) (hb b6 (by simp)) (hb b7 (by simp))]
    rw [packBits_cons8]
    have hrest : ∀ b ∈ rest, b < 2 := fun b hbmem => hb b (by simp [hbmem])
    have hlen : rest.length ≤ n := by
      simp only [List.length_cons] at hn
      omega
    rw [ih rest hlen hrest (j + 8) (by omega)]

/-- The extraction loop equals specification-level packing of the eligible
LSB stream. -/
theorem extractGo_eq_packBits (pix : List Nat) :
    extractGo pix = packBits (eligBits pix 0) := by
  rw [extractGo, extractLoop_eq_packLoop]
  exact packLoop_eq_packBits_aux (eligBits pix 0).length _ le_rfl (eligBits_lt_two pix 0) 0 rfl

theorem packBits_length_aux : ∀ (n : Nat) (bits : List Nat), bits.length ≤ n →
    (packBits bits).length = bits.length / 8 := by
  intro n
  induction n with
  | zero =>
    intro bits hn
    have hnil : bits = [] := List.eq_nil_of_length_eq_zero (by omega)
    subst hnil
    rfl
  | succ n ih =>
    intro bits hn
    rcases bits with _ | ⟨b0, _ | ⟨b1, _ | ⟨b2, _ | ⟨b3, _ | ⟨b4, _ | ⟨b5, _ | ⟨b6, _ | ⟨b7, rest⟩⟩⟩⟩⟩⟩⟩⟩
    all_goals try
      (rw [packBits_short _ (by simp only [List.length_cons, List.length_nil]; omega)];
        simp only [List.length_cons, List.length_nil]; try omega)
    rw [packBits_cons8]
    simp only [List.length_cons] at hn ⊢
    rw [ih rest (by omega)]
    omega

theorem packBits_length (bits : List Nat) : (packBits bits).length = bits.length / 8 :=
  packBits_length_aux bits.length bits le_rfl

/-- The bit reader serves one byte as its 8 bits, MSB first. -/
theorem bitsFrom_cons (d : Nat) (rest : List Nat) :
    bitsFrom (d :: rest) 0 =
      [(d &&& 128) >>> 7, (d &&& 64) >>> 6, (d &&& 32) >>> 5, (d &&& 16) >>> 4,
        (d &&& 8) >>> 3, (d &&& 4) >>> 2, (d &&& 2) >>> 1, d &&& 1] ++ bitsFrom rest 0 := by
  unfold bitsFrom
  have e : 8 * (d :: rest).length - 0 = 8 + (8 * rest.length - 0) := by
    simp [List.length_cons]
    omega
  have hA : List.map (fun t => brVal (d :: rest) (0 + t)) (List.range 8) =
      [(d &&& 128) >>> 7, (d &&& 64) >>> 6, (d &&& 32) >>> 5, (d &&& 16) >>> 4,
        (d &&& 8) >>> 3, (d &&& 4) >>> 2, (d &&& 2) >>> 1, d &&& 1] := by
    rw [show List.range 8 = [0, 1, 2, 3, 4, 5, 6, 7] from rfl]
    simp [brVal]
  have hB : List.map (fun t => brVal (d :: rest) (0 + t))
        ((List.range (8 * rest.length - 0)).map (fun x => 8 + x)) =
      List.map (fun t => brVal rest (0 + t)) (List.range (8 * rest.length - 0)) := by
    rw [List.map_map]
    apply List.map_congr_left
    intro t ht
    show brVal (d :: rest) (0 + (8 + t)) = brVal rest (0 + t)
    simp only [Nat.zero_add]
    unfold brVal
    have e1 : (8 + t) / 8 = t / 8 + 1 := by omega
    have e2 : (8 + t) % 8 = t % 8 := by omega
    rw [e1, e2, List.getD_cons_succ]
  rw [e, List.range_add, List.map_append, hA, hB]

set_option maxRecDepth 4096 in
theorem byteCombineAux (d : Fin 256) :
    (((d : Nat) &&& 128) >>> 7) * 128 + (((d : Nat) &&& 64) >>> 6) * 64 +
      (((d : Nat) &&& 32) >>> 5) * 32 + (((d : Nat) &&& 16) >>> 4) * 16 +
      (((d : Nat) &&& 8) >>> 3) * 8 + (((d : Nat) &&& 4) >>> 2) * 4 +
      (((d : Nat) &&& 2) >>> 1) * 2 + ((d : Nat) &&& 1) = (d : Nat) := by
  revert d
  decide

/-- Recombining the 8 extracted bits of a byte MSB-first yields the byte. -/
theorem byteCombine {d : Nat} (h : d < 256) :
    ((d &&& 128) >>> 7) * 128 + ((d &&& 64) >>> 6) * 64 + ((d &&& 32) >>> 5) * 32 +
      ((d &&& 16) >>> 4) * 16 + ((d &&& 8) >>> 3) * 8 + ((d &&& 4) >>> 2) * 4 +
      ((d &&& 2) >>> 1) * 2 + (d &&& 1) = d :=
  byteCombineAux ⟨d, h⟩

/-- Packing the serialized bit stream of a byte buffer (followed by any
suffix of bits) recovers the byte buffer in front of the packed suffix. -/
theorem packBits_bitsFrom (data : List Nat) (hd : ∀ b ∈ data, b < 256) (suffix : List Nat) :
    packBits (bitsFrom data 0 ++ suffix) = data ++ packBits suffix := by
  induction data with
  | nil =>
    rw [bitsFrom_ge (by simp)]
    simp
  | cons d rest ih =>
    rw [bitsFrom_cons, List.append_assoc]
    simp only [List.cons_append, List.nil_append]
    rw [packBits_cons8, byteCombine (hd d (by simp)),
      ih (fun b hbmem => hd b (by simp [hbmem]))]

/-- Inversion of a successful encode: the output is the embedding loop run
over the carrier. -/
theorem encodeGo_ok {pix msg out : List Nat} (hok : encodeGo pix msg = Except.ok out) :
    out = encodeLoop pix 0 (frameData msg) 0 := by
  simp only [encodeGo] at hok
  by_cases hc : (frameData msg).length + pix.length / 4 > pix.length
  · rw [if_pos hc] at hok
    cases hok
  · rw [if_neg hc] at hok
    injection hok with h
    exact h.symm

/-- Claim C1: for every payload `P` (byte values, `u32`-sized) and every
carrier whose eligible-byte count `E` satisfies `8 * (8 + |P|) ≤ E`,
embedding the frame built from `P` succeeds and extracting plus
parse-verifying the embedded carrier yields exactly `P`. -/
theorem roundTrip (pix msg : List Nat) (hbytes : ∀ b ∈ msg, b < 256)
    (hlen : msg.length < 2 ^ 32)
    (hcap : 8 * (8 + msg.length) ≤ (eligBits pix 0).length) :
    ∃ out, encodeGo pix msg = Except.ok out ∧ decodeGo out = Except.ok msg := by
  have hE : (eligBits pix 0).length = eligRank pix.length := by
    rw [eligBits_length pix 0, eligRank_zero, Nat.zero_add, Nat.sub_zero]
  have hdlen : (frameData msg).length = 8 + msg.length := frameData_length msg
  have hcheck : ¬ (frameData msg).length + pix.length / 4 > pix.length := by
    rw [hdlen]
    rw [hE] at hcap
    simp only [eligRank] at hcap
    omega
  refine ⟨encodeLoop pix 0 (frameData msg) 0, ?_, ?_⟩
  · simp only [encodeGo]
    rw [if_neg hcheck]
  · rw [decodeGo, extractGo_eq_packBits]
    have hcap2 : 8 * (frameData msg).length - 0 ≤ (eligBits pix 0).length := by
      rw [hdlen]
      omega
    rw [eligBits_encodeLoop pix 0 0 (frameData msg) (by omega) hcap2]
    rw [packBits_bitsFrom (frameData msg) (frameData_lt msg hbytes) _]
    exact parseFrame_frame msg _ hlen

/-- Witness for C1 at a concrete carrier and payload. -/
theorem roundTrip_witness :
    ∃ out, encodeGo (List.replicate 96 0) [72] = Except.ok out ∧
      decodeGo out = Except.ok [72] :=
  roundTrip (List.replicate 96 0) [72] (by decide) (by norm_num) (by decide)

/-- Claim C9: extraction is total, equals MSB-first packing of the eligible
LSB stream, and returns `floor(E/8)` bytes. -/
theorem extractTotal (pix : List Nat) :
    extractGo pix = packBits (eligBits pix 0) ∧
    (extractGo pix).length = (eligBits pix 0).length / 8 := by
  refine ⟨extractGo_eq_packBits pix, ?_⟩
  rw [extractGo_eq_packBits pix, packBits_length]

/-- Claim C3: the capacity failure is decided by the pre-check alone (a pure
function of the two buffer lengths, evaluated before the write loop), no
buffer is produced in that case, and a successful embed writes the whole
output buffer, which has the carrier's length. -/
theorem encodeAtomic (pix msg : List Nat) :
    (encodeGo pix msg = Except.error capacityMsg ↔
      (frameData msg).length + pix.length / 4 > pix.length) ∧
    (∀ out, encodeGo pix msg = Except.ok out → out.length = pix.length) := by
  constructor
  · constructor
    · intro h
      by_cases hc : (frameData msg).length + pix.length / 4 > pix.length
      · exact hc
      · simp only [encodeGo] at h
        rw [if_neg hc] at h
        cases h
    · intro hc
      simp only [encodeGo]
      rw [if_pos hc]
  · intro out hok
    rw [encodeGo_ok hok]
    exact encodeLoop_length pix 0 0 (frameData msg)

/-- Witness for C3: the empty carrier rejects even the empty payload, and a
96-byte carrier accepts a 1-byte payload producing a 96-byte output. -/
theorem encodeAtomic_witness :
    encodeGo [] [] = Except.error capacityMsg ∧
    (∀ out, encodeGo (List.replicate 96 0) [72] = Except.ok out → out.length = 96) := by
  constructor
  · exact (encodeAtomic [] []).1.mpr (by norm_num [frameData_length])
  · intro out hok
    have := (encodeAtomic (List.replicate 96 0) [72]).2 out hok
    simpa using this

/-- Claim C2 evaluation: for the 40,000-byte carrier (30,000 eligible bytes),
a 3743-byte payload needs 30,008 bits — beyond the precise capacity — yet the
source's byte-count pre-check accepts it and encode succeeds. -/
theorem capacityCheckBug :
    8 * (8 + (List.replicate 3743 1).length) > (eligBits (List.replicate 40000 0) 0).length ∧
    encodeGo (List.replicate 40000 0) (List.replicate 3743 1) =
      Except.ok (encodeLoop (List.replicate 40000 0) 0 (frameData (List.replicate 3743 1)) 0) := by
  have hE : (eligBits (List.replicate (40000 : Nat) (0 : Nat)) 0).length = 30000 := by
    rw [eligBits_length, eligRank_zero, Nat.zero_add, Nat.sub_zero, List.length_replicate]
    simp only [eligRank]
    try omega
  constructor
  · rw [hE, List.length_replicate]
    omega
  · simp only [encodeGo]
    rw [if_neg (by rw [frameData_length]; simp only [List.length_replicate]; omega)]

/-- Replacing a byte at an ineligible index does not change the eligible LSB
stream. -/
theorem eligBits_set_skip (pix : List Nat) : ∀ (i0 k v : Nat), (i0 + k + 1) % 4 = 0 →
    eligBits (pix.set k v) i0 = eligBits pix i0 := by
  induction pix with
  | nil => intro i0 k v h; rfl
  | cons b rest ih =>
    intro i0 k v h
    cases k with
    | zero =>
      simp only [List.set_cons_zero]
      rw [eligBits_cons, eligBits_cons, if_pos (by simpa using h), if_pos (by simpa using h)]
    | succ k =>
      simp only [List.set_cons_succ]
      rw [eligBits_cons, eligBits_cons]
      have h2 : (i0 + 1 + k + 1) % 4 = 0 := by omega
      rw [ih (i0 + 1) k v h2]

/-- Claim C6: bytes at absolute indices with `(i+1) % 4 = 0` are copied
through a successful embed unchanged, and contribute nothing to extraction. -/
theorem alphaUntouched (pix msg : List Nat) (i : Nat) (hi : (i + 1) % 4 = 0) :
    (∀ out, encodeGo pix msg = Except.ok out → out[i]? = pix[i]?) ∧
    (∀ v, extractGo (pix.set i v) = extractGo pix) := by
  constructor
  · intro out hok
    rw [encodeGo_ok hok, encodeLoop_getElem]
    cases hp : pix[i]? with
    | none => simp
    | some a =>
      simp only [Option.map_some']
      rw [if_pos (by simpa using hi)]
  · intro v
    rw [extractGo_eq_packBits, extractGo_eq_packBits,
      eligBits_set_skip pix 0 i v (by simpa using hi)]

/-- Witness for C6 at index 3 of a concrete carrier. -/
theorem alphaUntouched_witness :
    (∀ out, encodeGo (List.replicate 96 7) [72] = Except.ok out → out[3]? = some 7) ∧
    extractGo ((List.replicate 96 7).set 3 255) = extractGo (List.replicate 96 7) := by
  constructor
  · intro out hok
    have h := (alphaUntouched (List.replicate 96 7) [72] 3 (by norm_num)).1 out hok
    rw [h]
    decide
  · exact (alphaUntouched (List.replicate 96 7) [72] 3 (by norm_num)).2 255

/-- Claim C7: on a successful embed, the eligible byte at index `i` receives
the frame bit of its eligible rank while the bit source lasts — its LSB is
overwritten by the bit, all higher bits kept — and is copied through
unchanged once the source is exhausted. -/
theorem embedRule (pix msg out : List Nat) (i : Nat) (helig : (i + 1) % 4 ≠ 0)
    (hok : encodeGo pix msg = Except.ok out) :
    out[i]? = pix[i]?.map (fun b =>
      if eligRank i < 8 * (frameData msg).length then
        b - b % 2 + brVal (frameData msg) (eligRank i)
      else b) := by
  rw [encodeGo_ok hok, encodeLoop_getElem]
  cases hp : pix[i]? with
  | none => simp
  | some a =>
    simp only [Option.map_some']
    rw [if_neg (by simpa using helig)]
    simp only [Nat.zero_add, eligRank_zero, Nat.sub_zero]

set_option maxRecDepth 8192 in
/-- Witness for C7 at index 0 of a concrete carrier (first frame bit), and at
an eligible index beyond the frame (copy-through). -/
theorem embedRule_witness :
    (encodeLoop (List.replicate 128 7) 0 (frameData [72]) 0)[0]? =
      some (7 - 7 % 2 + brVal (frameData [72]) 0) ∧
    (encodeLoop (List.replicate 128 7) 0 (frameData [72]) 0)[96]? = some 7 := by
  have hok : encodeGo (List.replicate 128 7) [72] =
      Except.ok (encodeLoop (List.replicate 128 7) 0 (frameData [72]) 0) := by
    simp only [encodeGo]
    rw [if_neg (by decide)]
  constructor
  · rw [embedRule (List.replicate 128 7) [72] _ 0 (by norm_num) hok]
    decide
  · rw [embedRule (List.replicate 128 7) [72] _ 96 (by norm_num) hok]
    decide

/-- Claim C4: the serialized frame is the 4-byte big-endian length, then the
4-byte big-endian Adler-32 checksum of the payload, then the payload; the
decoder's parser inverts exactly this layout with the same checksum. -/
theorem frameLayout (msg : List Nat) (hlen : msg.length < 2 ^ 32) :
    (frameData msg).take 4 = be32 msg.length ∧
    ((frameData msg).drop 4).take 4 = be32 (adler32 msg) ∧
    (frameData msg).drop 8 = msg ∧
    parseFrame (frameData msg) = Except.ok msg := by
  have e : frameData msg = be32 msg.length ++ (be32 (adler32 msg) ++ msg) := by
    rw [frameData, List.append_assoc]
  refine ⟨?_, ?_, ?_, ?_⟩
  · rw [e, List.take_left' (be32_length msg.length)]
  · rw [e, List.drop_left' (be32_length msg.length),
      List.take_left' (be32_length (adler32 msg))]
  · rw [frameData, List.drop_left' (by simp [be32])]
  · have h := parseFrame_frame msg [] hlen
    simpa using h

/-- Witness for C4 at a concrete payload. -/
theorem frameLayout_witness :
    (frameData [72, 73]).take 4 = be32 2 ∧
    ((frameData [72, 73]).drop 4).take 4 = be32 (adler32 [72, 73]) ∧
    (frameData [72, 73]).drop 8 = [72, 73] ∧
    parseFrame (frameData [72, 73]) = Except.ok [72, 73] := by
  have h := frameLayout [72, 73] (by norm_num)
  simpa using h

theorem parseFrame_def (s : List Nat) :
    parseFrame s =
      if (read32 (read32 s).2).2.length < (read32 s).1 then Except.error noHiddenMessage
      else if adler32 ((read32 (read32 s).2).2.take (read32 s).1) ≠ (read32 (read32 s).2).1 then
        Except.error noHiddenMessage
      else Except.ok ((read32 (read32 s).2).2.take (read32 s).1) := rfl

/-- A header read on fewer than 4 bytes drains the stream and leaves the
destination at zero. -/
theorem read32_short (l : List Nat) (h : l.length < 4) : read32 l = (0, []) := by
  rcases l with _ | ⟨a, _ | ⟨b, _ | ⟨c, _ | ⟨d, rest⟩⟩⟩⟩
  · rfl
  · rfl
  · rfl
  · rfl
  · exfalso
    simp only [List.length_cons] at h
    omega

/-- Any extracted stream shorter than the 8-byte header makes the parser fail
with the uniform no-message outcome. -/
theorem parseFrame_short4 (s : List Nat) (h : s.length < 4) :
    parseFrame s = Except.error noHiddenMessage := by
  rw [parseFrame_def, read32_short s h]
  dsimp only
  rw [show read32 ([] : List Nat) = (0, []) from rfl]
  dsimp only
  rw [if_neg (by simp), if_pos (by decide)]

/-- Any extracted stream shorter than the 8-byte header makes the parser fail
with the uniform no-message outcome. -/
theorem parseFrame_short (s : List Nat) (h : s.length < 8) :
    parseFrame s = Except.error noHiddenMessage := by
  rcases s with _ | ⟨b0, _ | ⟨b1, _ | ⟨b2, _ | ⟨b3, rest⟩⟩⟩⟩
  · exact parseFrame_short4 [] (by norm_num)
  · exact parseFrame_short4 [b0] (by norm_num)
  · exact parseFrame_short4 [b0, b1] (by norm_num)
  · exact parseFrame_short4 [b0, b1, b2] (by norm_num)
  · have hr : rest.length < 4 := by
      simp only [List.length_cons] at h
      omega
    have e1 : read32 (b0 :: b1 :: b2 :: b3 :: rest) =
        (((b0 * 256 + b1) * 256 + b2) * 256 + b3, rest) := rfl
    rw [parseFrame_def, e1]
    dsimp only
    rw [read32_short rest hr]
    dsimp only
    by_cases hX : ((b0 * 256 + b1) * 256 + b2) * 256 + b3 = 0
    · rw [hX, if_neg (by simp), if_pos (by decide)]
    · rw [if_pos (by simp only [List.length_nil]; omega)]

/-- After a failed-or-short first header read, the second read leaves the
checksum at zero. -/
theorem read32_second_zero (s : List Nat) (h : s.length < 8) :
    (read32 (read32 s).2).1 = 0 := by
  rcases s with _ | ⟨b0, _ | ⟨b1, _ | ⟨b2, _ | ⟨b3, rest⟩⟩⟩⟩
  · rfl
  · rfl
  · rfl
  · rfl
  · have hr : rest.length < 4 := by
      simp only [List.length_cons] at h
      omega
    have e1 : read32 (b0 :: b1 :: b2 :: b3 :: rest) =
        (((b0 * 256 + b1) * 256 + b2) * 256 + b3, rest) := rfl
    rw [e1]
    dsimp only
    rw [read32_short rest hr]

/-- Claim C8 (amended): the parser reads the first 4 bytes as size and the
next 4 as checksum, both big-endian; on fewer than 8 bytes it fails, but
with the same uniform no-message outcome as every other failure, not a
distinct truncated-header error. -/
theorem parseHeader (s : List Nat) (a b : Nat) (rest : List Nat)
    (ha : a < 2 ^ 32) (hb : b < 2 ^ 32) :
    (s.length < 8 → parseFrame s = Except.error noHiddenMessage) ∧
    parseFrame (be32 a ++ be32 b ++ rest) =
      (if rest.length < a then Except.error noHiddenMessage
       else if adler32 (rest.take a) ≠ b then Except.error noHiddenMessage
       else Except.ok (rest.take a)) := by
  refine ⟨parseFrame_short s, ?_⟩
  rw [parseFrame_def, List.append_assoc, read32_be32 ha]
  dsimp only
  rw [read32_be32 hb]

/-- Witness for C8 (amended): a 3-byte stream fails with the uniform outcome,
and a well-formed header parses its big-endian fields. -/
theorem parseHeader_witness :
    parseFrame [1, 2, 3] = Except.error noHiddenMessage ∧
    parseFrame (be32 1 ++ be32 393222 ++ [5]) = Except.ok [5] := by
  have h := parseHeader [1, 2, 3] 1 393222 [5] (by norm_num) (by norm_num)
  refine ⟨h.1 (by norm_num), ?_⟩
  rw [h.2, if_neg (by norm_num), if_neg (by decide)]
  rfl

/-- Counterexample for C8 as stated: the short-stream failure is the very
same uniform no-message outcome produced by an intact header whose checksum
mismatches — the code has no distinct truncated-header error. -/
theorem truncatedNotDistinct :
    parseFrame [0, 0, 0, 0, 0, 0, 0] = Except.error noHiddenMessage ∧
    parseFrame [0, 0, 0, 1, 0, 0, 0, 0, 5] = Except.error noHiddenMessage := by
  constructor
  · exact parseFrame_short _ (by norm_num)
  · rw [parseFrame_def]
    rw [show read32 [0, 0, 0, 1, 0, 0, 0, 0, 5] = (1, [0, 0, 0, 0, 5]) from rfl]
    dsimp only
    rw [show read32 [(0 : Nat), 0, 0, 0, 5] = (0, [5]) from rfl]
    dsimp only
    rw [if_neg (by norm_num), if_pos (by decide)]

/-- Claim C10 (amended): when the extracted stream is shorter than 8 bytes,
decode fails with the uniform no-message outcome (no out-of-bounds access:
the size-byte slice is guarded by the length check); the checksum read is
left 0, and the size read is left 0 exactly when fewer than 4 bytes were
extracted. -/
theorem decodeShortSafe (pix : List Nat) (h : (extractGo pix).length < 8) :
    decodeGo pix = Except.error noHiddenMessage ∧
    (read32 (read32 (extractGo pix)).2).1 = 0 ∧
    ((extractGo pix).length < 4 → (read32 (extractGo pix)).1 = 0) := by
  refine ⟨parseFrame_short _ h, read32_second_zero _ h, fun h4 => ?_⟩
  rw [read32_short _ h4]

set_option maxRecDepth 8192 in
/-- Counterexample for C10 as stated: a 44-byte carrier extracts only 4 bytes
(fewer than the 8-byte header), yet the size read is 1, not 0 — the first
header read succeeds on 4 available bytes. -/
theorem decodeShortSizeNonzero :
    (extractGo (List.replicate 41 0 ++ [1, 0, 0])).length < 8 ∧
    (read32 (extractGo (List.replicate 41 0 ++ [1, 0, 0]))).1 ≠ 0 := by
  decide

set_option maxRecDepth 8192 in
/-- Witness for C10 (amended) on the same concrete carrier. -/
theorem decodeShortSafe_witness :
    decodeGo (List.replicate 41 0 ++ [1, 0, 0]) = Except.error noHiddenMessage ∧
    (read32 (read32 (extractGo (List.replicate 41 0 ++ [1, 0, 0]))).2).1 = 0 := by
  have h := decodeShortSafe (List.replicate 41 0 ++ [1, 0, 0]) (by decide)
  exact ⟨h.1, h.2.1⟩

theorem getD_append_lt (l1 l2 : List Nat) (k d : Nat) (h : k < l1.length) :
    (l1 ++ l2).getD k d = l1.getD k d := by
  rw [List.getD_eq_getElem?_getD, List.getD_eq_getElem?_getD, List.getElem?_append_left h]

theorem getD_append_ge (l1 l2 : List Nat) (k d : Nat) (h : l1.length ≤ k) :
    (l1 ++ l2).getD k d = l2.getD (k - l1.length) d := by
  rw [List.getD_eq_getElem?_getD, List.getD_eq_getElem?_getD, List.getElem?_append_right h]

/-- Flipping the LSB of the eligible byte of rank `k` flips exactly bit `k`
of the eligible LSB stream. -/
theorem eligBits_flipElig (pix : List Nat) : ∀ (i0 k : Nat), k < (eligBits pix i0).length →
    eligBits (flipElig pix i0 k) i0 =
      (eligBits pix i0).set k (1 - (eligBits pix i0).getD k 0) := by
  induction pix with
  | nil =>
    intro i0 k hk
    rw [eligBits_nil] at hk
    simp at hk
  | cons b rest ih =>
    intro i0 k hk
    by_cases hskip : (i0 + 1) % 4 = 0
    · have he : eligBits (b :: rest) i0 = eligBits rest (i0 + 1) := by
        rw [eligBits_cons, if_pos hskip]
      rw [flipElig_cons, if_pos hskip, eligBits_cons, if_pos hskip]
      rw [he] at hk ⊢
      exact ih (i0 + 1) k hk
    · have he : eligBits (b :: rest) i0 = b % 2 :: eligBits rest (i0 + 1) := by
        rw [eligBits_cons, if_neg hskip]
      rw [flipElig_cons, if_neg hskip]
      cases k with
      | zero =>
        rw [if_pos rfl, eligBits_cons, if_neg hskip, he]
        simp only [List.set_cons_zero, List.getD_cons_zero]
        congr 1
        omega
      | succ k =>
        rw [if_neg (by omega), eligBits_cons, if_neg hskip, he]
        simp only [List.set_cons_succ, List.getD_cons_succ, Nat.add_sub_cancel]
        congr 1
        have hk2 : k < (eligBits rest (i0 + 1)).length := by
          rw [he] at hk
          simp only [List.length_cons] at hk
          omega
        exact ih (i0 + 1) k hk2

theorem packBits_flip_aux : ∀ (n : Nat) (bits : List Nat), bits.length ≤ n →
    (∀ b ∈ bits, b < 2) → ∀ k : Nat, k < 8 * (bits.length / 8) →
    ∃ d : Nat, packBits (bits.set k (1 - bits.getD k 0)) = (packBits bits).set (k / 8) d ∧
      d ≠ (packBits bits).getD (k / 8) 0 ∧ d < 256 := by
  intro n
  induction n with
  | zero =>
    intro bits hn hb k hk
    have hnil : bits = [] := List.eq_nil_of_length_eq_zero (by omega)
    subst hnil
    simp only [List.length_nil] at hk
    omega
  | succ n ih =>
    intro bits hn hb k hk
    rcases bits with _ | ⟨b0, _ | ⟨b1, _ | ⟨b2, _ | ⟨b3, _ | ⟨b4, _ | ⟨b5, _ | ⟨b6, _ | ⟨b7, rest⟩⟩⟩⟩⟩⟩⟩⟩
    all_goals try
      (exfalso; simp only [List.length_cons, List.length_nil] at hk; omega)
    have h0 : b0 < 2 := hb b0 (by simp)
    have h1 : b1 < 2 := hb b1 (by simp)
    have h2 : b2 < 2 := hb b2 (by simp)
    have h3 : b3 < 2 := hb b3 (by simp)
    have h4 : b4 < 2 := hb b4 (by simp)
    have h5 : b5 < 2 := hb b5 (by simp)
    have h6 : b6 < 2 := hb b6 (by simp)
    have h7 : b7 < 2 := hb b7 (by simp)
    by_cases hk8 : k < 8
    · interval_cases k <;>
        (simp only [List.getD_cons_zero, List.getD_cons_succ, List.set_cons_zero,
          List.set_cons_succ, packBits_cons8, Nat.reduceDiv];
         refine ⟨_, rfl, ?_, ?_⟩ <;> omega)
    · have e8 : k = (k - 8) + 8 := by omega
      have hlen : rest.length ≤ n := by
        simp only [List.length_cons] at hn
        omega
      have hrest : ∀ b ∈ rest, b < 2 := fun b hbm => hb b (by simp [hbm])
      have hk' : k - 8 < 8 * (rest.length / 8) := by
        simp only [List.length_cons] at hk
        omega
      obtain ⟨d, hset, hne, hd⟩ := ih rest hlen hrest (k - 8) hk'
      refine ⟨d, ?_, ?_, hd⟩
      · rw [e8]
        simp only [List.set_cons_succ, List.getD_cons_succ, packBits_cons8]
        rw [hset]
        have ed : ((k - 8) + 8) / 8 = (k - 8) / 8 + 1 := by omega
        rw [ed, List.set_cons_succ]
      · rw [e8]
        simp only [List.getD_cons_succ, packBits_cons8]
        have ed : ((k - 8) + 8) / 8 = (k - 8) / 8 + 1 := by omega
        rw [ed, List.getD_cons_succ]
        exact hne

theorem packBits_flip (bits : List Nat) (hb : ∀ b ∈ bits, b < 2) (k : Nat)
    (hk : k < 8 * (bits.length / 8)) :
    ∃ d : Nat, packBits (bits.set k (1 - bits.getD k 0)) = (packBits bits).set (k / 8) d ∧
      d ≠ (packBits bits).getD (k / 8) 0 ∧ d < 256 :=
  packBits_flip_aux bits.length bits le_rfl hb k hk

/-- Claim C5: in a validly embedded carrier, flipping the LSB of the eligible
byte carrying any frame bit of the declared payload region (bit index
64 ≤ k < 8*(8+|P|)) makes decode fail with the uniform no-message outcome
(Adler-32 mismatch), while the extracted stream beyond the declared frame has
no influence: any tail after the frame parses to the same payload. -/
theorem integrityDetect (pix msg out : List Nat) (k : Nat)
    (hbytes : ∀ b ∈ msg, b < 256) (hlen : msg.length < 2 ^ 32)
    (hcap : 8 * (8 + msg.length) ≤ (eligBits pix 0).length)
    (hk1 : 64 ≤ k) (hk2 : k < 8 * (8 + msg.length))
    (hok : encodeGo pix msg = Except.ok out) :
    decodeGo (flipElig out 0 k) = Except.error noHiddenMessage ∧
    ∀ t, parseFrame (frameData msg ++ t) = Except.ok msg := by
  refine ⟨?_, fun t => parseFrame_frame msg t hlen⟩
  have hout := encodeGo_ok hok
  subst hout
  have hdlen : (frameData msg).length = 8 + msg.length := frameData_length msg
  have hcap2 : 8 * (frameData msg).length - 0 ≤ (eligBits pix 0).length := by
    rw [hdlen]
    omega
  have hB : eligBits (encodeLoop pix 0 (frameData msg) 0) 0 =
      bitsFrom (frameData msg) 0 ++
        (eligBits pix 0).drop (8 * (frameData msg).length - 0) :=
    eligBits_encodeLoop pix 0 0 (frameData msg) (by omega) hcap2
  have hkd : k < 8 * (frameData msg).length := by
    rw [hdlen]
    omega
  have hBlen : 8 * (frameData msg).length ≤
      (eligBits (encodeLoop pix 0 (frameData msg) 0) 0).length := by
    rw [hB, List.length_append, bitsFrom_length]
    omega
  rw [decodeGo, extractGo_eq_packBits, eligBits_flipElig _ 0 k (by omega)]
  have hbit2 : ∀ b ∈ eligBits (encodeLoop pix 0 (frameData msg) 0) 0, b < 2 :=
    eligBits_lt_two _ 0
  have hkp : k < 8 * ((eligBits (encodeLoop pix 0 (frameData msg) 0) 0).length / 8) := by
    omega
  obtain ⟨d, hset, hne, hd256⟩ := packBits_flip _ hbit2 k hkp
  rw [hset]
  have hPB : packBits (eligBits (encodeLoop pix 0 (frameData msg) 0) 0) =
      frameData msg ++ packBits ((eligBits pix 0).drop (8 * (frameData msg).length - 0)) := by
    rw [hB]
    exact packBits_bitsFrom (frameData msg) (frameData_lt msg hbytes) _
  rw [hPB] at hne ⊢
  have hj0a : 8 ≤ k / 8 := by omega
  have hj0b : k / 8 < 8 + msg.length := by omega
  rw [List.set_append_left _ _ (by rw [hdlen]; omega)]
  have hdsplit : frameData msg = (be32 msg.length ++ be32 (adler32 msg)) ++ msg := by
    rw [frameData]
  have hh8 : (be32 msg.length ++ be32 (adler32 msg)).length = 8 := by
    simp [be32]
  rw [hdsplit, List.set_append_right _ _ (by rw [hh8]; omega), hh8,
    List.append_assoc, List.append_assoc]
  have hj' : k / 8 - 8 < msg.length := by omega
  have hfin : adler32 (msg.set (k / 8 - 8) d) ≠ adler32 msg := by
    have hold : d ≠ msg.getD (k / 8 - 8) 0 := by
      rw [getD_append_lt _ _ _ _ (by rw [hdlen]; omega), hdsplit,
        getD_append_ge _ _ _ _ (by rw [hh8]; omega), hh8] at hne
      exact hne
    have hdrop : msg.drop (k / 8 - 8) = msg.getD (k / 8 - 8) 0 :: msg.drop (k / 8 - 8 + 1) := by
      rw [List.drop_eq_getElem_cons hj']
      congr 1
      rw [List.getD_eq_getElem?_getD, List.getElem?_eq_getElem hj']
      rfl
    have holdlt : msg.getD (k / 8 - 8) 0 < 256 := by
      apply hbytes
      conv_lhs => rw [← List.take_append_drop (k / 8 - 8) msg]
      rw [hdrop]
      exact List.mem_append.mpr (Or.inr (List.mem_cons_self _ _))
    have hset_eq : msg.set (k / 8 - 8) d = msg.take (k / 8 - 8) ++ d :: msg.drop (k / 8 - 8 + 1) := by
      rw [List.set_eq_take_append_cons_drop, if_pos hj']
    have hmsg_eq : msg = msg.take (k / 8 - 8) ++ msg.getD (k / 8 - 8) 0 :: msg.drop (k / 8 - 8 + 1) := by
      conv_lhs => rw [← List.take_append_drop (k / 8 - 8) msg]
      rw [hdrop]
    rw [hset_eq]
    conv_rhs => rw [hmsg_eq]
    exact adler32_ne_of_byte_ne _ _ hd256 holdlt hold
  rw [parseFrame_def, read32_be32 hlen]
  dsimp only
  rw [read32_be32 (adler32_lt msg)]
  dsimp only
  rw [if_neg (by simp only [List.length_append, List.length_set]; omega),
    List.take_left' (by simp), if_pos hfin]

/-- Witness for C5: embedding "H" into a 96-byte carrier and flipping the
first payload bit (bit index 64) makes decode fail. -/
theorem integrityDetect_witness :
    ∃ out, encodeGo (List.replicate 96 0) [72] = Except.ok out ∧
      decodeGo (flipElig out 0 64) = Except.error noHiddenMessage := by
  have hok : encodeGo (List.replicate 96 0) [72] =
      Except.ok (encodeLoop (List.replicate 96 0) 0 (frameData [72]) 0) := by
    simp only [encodeGo]
    rw [if_neg (by decide)]
  exact ⟨_, hok, (integrityDetect (List.replicate 96 0) [72] _ 64 (by decide) (by decide)
    (by decide) (by decide) (by decide) hok).1⟩

end Hidden
